import Mathlib

set_option linter.unusedSectionVars false

/-!
Verification of the generic Dijkstra engine in `dijkstra.go`
(`Dijkstra`, `Options.Dijkstra`, `Options.ShortestPath`,
`Options.CreatePathFinder`, `newNotReachableError` and their helpers).

Modelling decisions:

* States `K` and costs `C` are opaque type parameters, as in the Go
  generics.  `K` carries `DecidableEq` (Go: `comparable`).
* The Go `Node[K, C]` struct becomes the structure `Node` below with the
  same field names.
* The priority frontier is built on Go's external `container/heap`
  library (not part of this repository), so it is modelled by that
  library's documented contract: `Pop` removes and returns a minimum
  element with respect to the supplied `less`.  The frontier is a list,
  `Push` appends, and `popMin` removes the first minimal element; ties
  are broken arbitrarily by heap mechanics in the source and by position
  here.
* A Go `map[K]Node[K, C]` becomes an association list of `Node`s keyed
  by `Node.Key`, ordered by insertion (= finalization order).  Go map
  iteration order is unspecified; `getKeys` enumerates in that list
  order.  Indexing a missing key yields the zero value, modelled with
  `Inhabited` defaults.
* Both loops (`Dijkstra`'s frontier loop and `ShortestPath`'s
  predecessor walk) can diverge in Go for adversarial callbacks, so they
  are embedded fuel-indexed: `none` means the computation did not finish
  within the given fuel, `some` is the returned value.
-/

/-- Go `Node[K comparable, C any]`: a frontier entry / finalized record. -/
structure Node (K C : Type) where
  Key : K
  Cost : C
  Prev : Option K
deriving Repr, DecidableEq

instance [Inhabited K] [Inhabited C] : Inhabited (Node K C) :=
  ⟨⟨default, default, none⟩⟩

/-- Contract of `priorityNodes.Pop` (Go `container/heap`, external
library): remove and return a minimum-cost element together with the
remaining entries; `none` on an empty frontier.  Among ties the heap's
choice is arbitrary; this model takes the leftmost minimal element. -/
def popMin (less : C → C → Bool) : List (Node K C) → Option (Node K C × List (Node K C))
  | [] => none
  | x :: xs =>
    match popMin less xs with
    | none => some (x, xs)
    | some (m, rest) =>
      if less m.Cost x.Cost then some (m, x :: rest) else some (x, xs)

/-- Go map lookup `costs[k]` on the association-list model. -/
def lookupNode [DecidableEq K] (costs : List (Node K C)) (k : K) : Option (Node K C) :=
  match costs with
  | [] => none
  | n :: rest => if n.Key = k then some n else lookupNode rest k

/-- Position of the record keyed `k` in the cost map's finalization
order (`costs.length` when absent). -/
def keyIdx [DecidableEq K] (costs : List (Node K C)) (k : K) : Nat :=
  match costs with
  | [] => 0
  | n :: rest => if n.Key = k then 0 else keyIdx rest k + 1

/-- The batch of frontier entries pushed while expanding the freshly
finalized record `m`: one entry per destination the accumulator admits,
with predecessor `m.Key` (Go: `open.Push(dest, &current, destCost)`). -/
def pushList (acc : C → K → K → C × Bool) (m : Node K C) (dests : List K) :
    List (Node K C) :=
  dests.filterMap fun dest =>
    let r := acc m.Cost m.Key dest
    if r.2 then some ⟨dest, r.1, some m.Key⟩ else none

/-- The `for !open.Empty()` loop of Go `Dijkstra`, fuel-indexed.
Pop the minimum entry; if its state is already finalized discard it,
otherwise finalize it and push its admissible neighbors. -/
def dijkstraLoop [DecidableEq K] (acc : C → K → K → C × Bool) (less : C → C → Bool)
    (edges : K → List K) :
    Nat → List (Node K C) → List (Node K C) → Option (List (Node K C))
  | fuel, opn, costs =>
    match popMin less opn with
    | none => some costs
    | some (m, rest) =>
      match fuel with
      | 0 => none
      | fuel' + 1 =>
        match lookupNode costs m.Key with
        | some _ => dijkstraLoop acc less edges fuel' rest costs
        | none =>
          dijkstraLoop acc less edges fuel'
            (rest ++ pushList acc m (edges m.Key)) (costs ++ [m])

/-- Go `Dijkstra(start, accumulator, initial, less, edges)`: seed the
frontier with `(start, nil, initial)` — the accumulator is not consulted
for the seed — then run the loop.  `fuel` bounds the number of loop
iterations; `none` models non-termination within that budget. -/
def Dijkstra [DecidableEq K] (fuel : Nat) (start : K)
    (accumulator : C → K → K → C × Bool) (initial : C) (less : C → C → Bool)
    (edges : K → List K) : Option (List (Node K C)) :=
  dijkstraLoop accumulator less edges fuel [⟨start, initial, none⟩] []

/-- Go `NotReachableError[K, C]`. -/
structure NotReachableError (K C : Type) where
  Costs : List (Node K C)
  Start : K
  Goal : K
  StartingUnknown : Bool
deriving Repr, DecidableEq

/-- Go `getKeys`: the keys of the cost map (iteration order of a Go map
is unspecified; the model enumerates in finalization order). -/
def getKeys (costs : List (Node K C)) : List K :=
  costs.map Node.Key

/-- Inner loop of Go `filterMinBy`, tracking the running `(min, ok)`
accumulator and the element index handed to the predicate. -/
def filterMinByAux (p : V → Nat → Bool) (less : V → V → Bool) :
    List V → Nat → V × Bool → V × Bool
  | [], _, acc => acc
  | item :: rest, index, (min, ok) =>
    if !(p item index) then filterMinByAux p less rest (index + 1) (min, ok)
    else if !ok then filterMinByAux p less rest (index + 1) (item, true)
    else if less item min then filterMinByAux p less rest (index + 1) (item, true)
    else filterMinByAux p less rest (index + 1) (min, ok)

/-- Go `filterMinBy`: first minimum (under `less`) among the elements
satisfying the predicate; `ok = false` (and the zero value) when no
element qualifies. -/
def filterMinBy [Inhabited V] (collection : List V) (p : V → Nat → Bool)
    (less : V → V → Bool) : V × Bool :=
  filterMinByAux p less collection 0 (default, false)

/-- Go `minCostNode`: minimum-cost key among `nodes` that have a record
in `costs` (a missing key would read the zero-value record). -/
def minCostNode [DecidableEq K] [Inhabited K] [Inhabited C] (nodes : List K)
    (costs : List (Node K C)) (less : C → C → Bool) : K × Bool :=
  filterMinBy nodes
    (fun node _ => (lookupNode costs node).isSome)
    (fun i j => less ((lookupNode costs i).getD default).Cost
      ((lookupNode costs j).getD default).Cost)

/-- Go `newNotReachableError`: diagnostic error carrying the cost map,
the minimum-cost finalized key as inferred `Start`, the requested goal,
and `StartingUnknown` when no finalized key exists. -/
def newNotReachableError [DecidableEq K] [Inhabited K] [Inhabited C]
    (costs : List (Node K C)) (less : C → C → Bool) (goal : K) :
    NotReachableError K C :=
  let r := minCostNode (getKeys costs) costs less
  { Costs := costs, Start := r.1, Goal := goal, StartingUnknown := !r.2 }

/-- The predecessor walk of Go `Options.ShortestPath`, fuel-indexed:
`path` is nonempty with the currently examined state at its head; each
step prepends the head's predecessor.  `none` models running out of
fuel (the Go loop would still be running). -/
def shortestPathLoop [DecidableEq K] [Inhabited K] [Inhabited C] (less : C → C → Bool)
    (costs : List (Node K C)) (goal : K) :
    Nat → List K → Option (Except (NotReachableError K C) (List K))
  | fuel, path =>
    match path with
    | [] => none
    | current :: _ =>
      match lookupNode costs current with
      | none => some (Except.error (newNotReachableError costs less goal))
      | some node =>
        match node.Prev with
        | none => some (Except.ok path)
        | some prev =>
          match fuel with
          | 0 => none
          | fuel' + 1 => shortestPathLoop less costs goal fuel' (prev :: path)

/-- Go `Options.ShortestPath(costs, goal)` (which uses only the `Less`
field of the receiver, passed here directly): fail immediately when the
goal has no record, otherwise walk predecessors from `[goal]`. -/
def ShortestPath [DecidableEq K] [Inhabited K] [Inhabited C] (less : C → C → Bool)
    (costs : List (Node K C)) (goal : K) (fuel : Nat) :
    Option (Except (NotReachableError K C) (List K)) :=
  match lookupNode costs goal with
  | none => some (Except.error (newNotReachableError costs less goal))
  | some _ => shortestPathLoop less costs goal fuel [goal]

/-- Go `Options[K, C]`: the configuration record.  `Edges` is optional
(`nil` in Go is `none`). -/
structure Options (K C : Type) where
  Accumulator : C → K → K → C × Bool
  Less : C → C → Bool
  Edges : Option (K → List K)

/-- Go `Options.Dijkstra(start, initial)`.  The dynamic capability probe
`any(k).(interface{ Adjacent() []K })` is modelled by the `adjacent`
parameter: `some f` when the state type implements `Adjacent` (with `f`
that method), `none` otherwise.  When both `Edges` and the capability
are absent the Go code invokes a nil callback and panics, modelled as
`none` (no result). -/
def Options.DijkstraFuel [DecidableEq K] (c : Options K C)
    (adjacent : Option (K → List K)) (fuel : Nat) (start : K) (initial : C) :
    Option (List (Node K C)) :=
  match (match c.Edges with
         | some e => some e
         | none => adjacent : Option (K → List K)) with
  | some e => Dijkstra fuel start c.Accumulator initial c.Less e
  | none => none

/-- Go `Options.ShortestPath` as a method. -/
def Options.ShortestPathFuel [DecidableEq K] [Inhabited K] [Inhabited C]
    (c : Options K C) (costs : List (Node K C)) (goal : K) (fuel : Nat) :
    Option (Except (NotReachableError K C) (List K)) :=
  ShortestPath c.Less costs goal fuel

/-- Go `Options.CreatePathFinder(start, initial)`: run the search once,
capture the resulting cost map, and return a closure resolving paths
against it (re-wrapping the `ShortestPath` result exactly as the Go
closure's `if err != nil` does). -/
def Options.CreatePathFinder [DecidableEq K] [Inhabited K] [Inhabited C]
    (c : Options K C) (adjacent : Option (K → List K)) (fuel : Nat)
    (start : K) (initial : C) :
    K → Nat → Option (Except (NotReachableError K C) (List K)) :=
  let costs? := c.DijkstraFuel adjacent fuel start initial
  fun goal spFuel =>
    match costs? with
    | none => none
    | some costs =>
      match c.ShortestPathFuel costs goal spFuel with
      | none => none
      | some (Except.error e) => some (Except.error e)
      | some (Except.ok path) => some (Except.ok path)

/-- Admissible accumulation sequences: `Reaches acc edges start initial
s c` holds when some sequence of edges admitted by the accumulator leads
from `start` (at cost `initial`) to `s` at accumulated cost `c`. -/
inductive Reaches (acc : C → K → K → C × Bool) (edges : K → List K)
    (start : K) (initial : C) : K → C → Prop
  | refl : Reaches acc edges start initial start initial
  | step {u c v} : Reaches acc edges start initial u c → v ∈ edges u →
      (acc c u v).2 = true → Reaches acc edges start initial v (acc c u v).1

/-- Consecutive pairs `(p, q)` of the path are transitions the
configured `edges`/accumulator jointly admit, judged at `p`'s finalized
cost. -/
def chainOk [DecidableEq K] (acc : C → K → K → C × Bool) (edges : K → List K)
    (costs : List (Node K C)) : List K → Bool
  | p :: q :: rest =>
    (match lookupNode costs p with
     | some np => decide (q ∈ edges p) && (acc np.Cost p q).2
     | none => false) && chainOk acc edges costs (q :: rest)
  | _ => true

/-- The predecessor walk from `k` eventually hits a state with no record
(the two failure situations of `ShortestPath`: the goal itself missing,
or a predecessor reference dangling). -/
inductive Stuck [DecidableEq K] (costs : List (Node K C)) : K → Prop
  | missing {k} : lookupNode costs k = none → Stuck costs k
  | step {k n p} : lookupNode costs k = some n → n.Prev = some p →
      Stuck costs p → Stuck costs k

section Helpers

variable {K C : Type} [DecidableEq K]

theorem lookupNode_key {costs : List (Node K C)} {k : K} {n : Node K C}
    (h : lookupNode costs k = some n) : n.Key = k := by
  induction costs with
  | nil => simp [lookupNode] at h
  | cons x rest ih =>
    by_cases hx : x.Key = k
    · simp [lookupNode, hx] at h; subst h; exact hx
    · simp [lookupNode, hx] at h; exact ih h

theorem lookupNode_mem {costs : List (Node K C)} {k : K} {n : Node K C}
    (h : lookupNode costs k = some n) : n ∈ costs := by
  induction costs with
  | nil => simp [lookupNode] at h
  | cons x rest ih =>
    by_cases hx : x.Key = k
    · simp [lookupNode, hx] at h; simp [h]
    · simp [lookupNode, hx] at h; exact List.mem_cons_of_mem _ (ih h)

theorem lookupNode_append_some {costs l₂ : List (Node K C)} {k : K} {n : Node K C}
    (h : lookupNode costs k = some n) : lookupNode (costs ++ l₂) k = some n := by
  induction costs with
  | nil => simp [lookupNode] at h
  | cons x rest ih =>
    by_cases hx : x.Key = k
    · simp [lookupNode, hx] at h ⊢; exact h
    · simp [lookupNode, hx] at h ⊢; exact ih h

theorem lookupNode_append_none {costs l₂ : List (Node K C)} {k : K}
    (h : lookupNode costs k = none) : lookupNode (costs ++ l₂) k = lookupNode l₂ k := by
  induction costs with
  | nil => simp
  | cons x rest ih =>
    by_cases hx : x.Key = k
    · simp [lookupNode, hx] at h
    · simp [lookupNode, hx] at h ⊢; exact ih h

theorem lookupNode_none_iff {costs : List (Node K C)} {k : K} :
    lookupNode costs k = none ↔ ∀ n ∈ costs, n.Key ≠ k := by
  induction costs with
  | nil => simp [lookupNode]
  | cons x rest ih =>
    by_cases hx : x.Key = k
    · simp [lookupNode, hx]
    · simp [lookupNode, hx, ih]

theorem lookupNode_isSome_of_mem {costs : List (Node K C)} {n : Node K C}
    (h : n ∈ costs) : (lookupNode costs n.Key).isSome := by
  cases hl : lookupNode costs n.Key with
  | some m => rfl
  | none => exact absurd rfl (lookupNode_none_iff.mp hl n h)

/-- A cost map has each key at most once. -/
def NodupKeys (costs : List (Node K C)) : Prop :=
  List.Nodup (costs.map Node.Key)

theorem lookupNode_of_mem_nodup {costs : List (Node K C)} {n : Node K C}
    (hnd : NodupKeys costs) (h : n ∈ costs) : lookupNode costs n.Key = some n := by
  induction costs with
  | nil => simp at h
  | cons x rest ih =>
    have hnd2 : NodupKeys rest := by
      unfold NodupKeys at hnd ⊢
      simp only [List.map_cons, List.nodup_cons] at hnd
      exact hnd.2
    have hx : x.Key ∉ rest.map Node.Key := by
      unfold NodupKeys at hnd
      simp only [List.map_cons, List.nodup_cons] at hnd
      exact hnd.1
    rcases List.mem_cons.mp h with rfl | hmem
    · simp [lookupNode]
    · have hne : x.Key ≠ n.Key := by
        intro he
        exact hx (he ▸ List.mem_map.mpr ⟨n, hmem, rfl⟩)
      simp [lookupNode, hne]
      exact ih hnd2 hmem

theorem nodupKeys_append {costs : List (Node K C)} {m : Node K C}
    (hnd : NodupKeys costs) (h : lookupNode costs m.Key = none) :
    NodupKeys (costs ++ [m]) := by
  unfold NodupKeys at *
  rw [List.map_append]
  simp [List.nodup_append, hnd]
  intro n hn he
  exact lookupNode_none_iff.mp h n hn he

theorem keyIdx_lt_length {costs : List (Node K C)} {k : K} {n : Node K C}
    (h : lookupNode costs k = some n) : keyIdx costs k < costs.length := by
  induction costs with
  | nil => simp [lookupNode] at h
  | cons x rest ih =>
    by_cases hx : x.Key = k
    · simp [keyIdx, hx]
    · simp [lookupNode, hx] at h
      simp [keyIdx, hx]
      exact ih h

theorem keyIdx_append_some {costs l₂ : List (Node K C)} {k : K} {n : Node K C}
    (h : lookupNode costs k = some n) : keyIdx (costs ++ l₂) k = keyIdx costs k := by
  induction costs with
  | nil => simp [lookupNode] at h
  | cons x rest ih =>
    by_cases hx : x.Key = k
    · simp [keyIdx, hx]
    · simp [lookupNode, hx] at h
      simp [keyIdx, hx]
      exact ih h

theorem keyIdx_append_self {costs : List (Node K C)} {m : Node K C}
    (h : lookupNode costs m.Key = none) :
    keyIdx (costs ++ [m]) m.Key = costs.length := by
  induction costs with
  | nil => simp [keyIdx]
  | cons x rest ih =>
    by_cases hx : x.Key = m.Key
    · simp [lookupNode, hx] at h
    · simp [lookupNode, hx] at h
      simp [keyIdx, hx]
      exact ih h

end Helpers

section PopMinLemmas

variable {K C : Type}

theorem popMin_none_iff {less : C → C → Bool} {l : List (Node K C)} :
    popMin less l = none ↔ l = [] := by
  cases l with
  | nil => simp [popMin]
  | cons x xs =>
    simp only [popMin]
    cases h : popMin less xs with
    | none => simp
    | some p =>
      obtain ⟨m, rest⟩ := p
      by_cases hc : less m.Cost x.Cost <;> simp [hc]

theorem popMin_mem {less : C → C → Bool} {l rest : List (Node K C)} {m : Node K C}
    (h : popMin less l = some (m, rest)) : m ∈ l := by
  induction l generalizing m rest with
  | nil => simp [popMin] at h
  | cons x xs ih =>
    simp only [popMin] at h
    cases hx : popMin less xs with
    | none => rw [hx] at h; simp at h; simp [h.1]
    | some p =>
      obtain ⟨m', rest'⟩ := p
      rw [hx] at h
      by_cases hc : less m'.Cost x.Cost
      · simp [hc] at h
        exact List.mem_cons_of_mem _ (h.1 ▸ ih hx)
      · simp [hc] at h
        simp [h.1]

theorem popMin_rest_subset {less : C → C → Bool} {l rest : List (Node K C)} {m : Node K C}
    (h : popMin less l = some (m, rest)) : ∀ x ∈ rest, x ∈ l := by
  induction l generalizing m rest with
  | nil => simp [popMin] at h
  | cons x xs ih =>
    simp only [popMin] at h
    cases hx : popMin less xs with
    | none =>
      rw [hx] at h; simp at h
      intro y hy; exact List.mem_cons_of_mem _ (h.2 ▸ hy)
    | some p =>
      obtain ⟨m', rest'⟩ := p
      rw [hx] at h
      by_cases hc : less m'.Cost x.Cost
      · simp [hc] at h
        intro y hy
        rw [← h.2] at hy
        rcases List.mem_cons.mp hy with rfl | hy'
        · simp
        · exact List.mem_cons_of_mem _ (ih hx y hy')
      · simp [hc] at h
        intro y hy; exact List.mem_cons_of_mem _ (h.2 ▸ hy)

theorem popMin_cover {less : C → C → Bool} {l rest : List (Node K C)} {m : Node K C}
    (h : popMin less l = some (m, rest)) : ∀ x ∈ l, x = m ∨ x ∈ rest := by
  induction l generalizing m rest with
  | nil => simp [popMin] at h
  | cons x xs ih =>
    simp only [popMin] at h
    cases hx : popMin less xs with
    | none =>
      rw [hx] at h; simp at h
      intro y hy
      rcases List.mem_cons.mp hy with rfl | hy'
      · exact Or.inl h.1
      · exact Or.inr (h.2 ▸ hy')
    | some p =>
      obtain ⟨m', rest'⟩ := p
      rw [hx] at h
      by_cases hc : less m'.Cost x.Cost
      · simp [hc] at h
        intro y hy
        rcases List.mem_cons.mp hy with rfl | hy'
        · exact Or.inr (h.2 ▸ List.mem_cons_self _ _)
        · rcases ih hx y hy' with rfl | hr
          · exact Or.inl h.1
          · exact Or.inr (h.2 ▸ List.mem_cons_of_mem _ hr)
      · simp [hc] at h
        intro y hy
        rcases List.mem_cons.mp hy with rfl | hy'
        · exact Or.inl h.1
        · exact Or.inr (h.2 ▸ hy')

theorem popMin_length {less : C → C → Bool} {l rest : List (Node K C)} {m : Node K C}
    (h : popMin less l = some (m, rest)) : rest.length + 1 = l.length := by
  induction l generalizing m rest with
  | nil => simp [popMin] at h
  | cons x xs ih =>
    simp only [popMin] at h
    cases hx : popMin less xs with
    | none => rw [hx] at h; simp at h; simp [← h.2]
    | some p =>
      obtain ⟨m', rest'⟩ := p
      rw [hx] at h
      by_cases hc : less m'.Cost x.Cost
      · simp [hc] at h
        have := ih hx
        simp [← h.2, ← this]
      · simp [hc] at h
        simp [← h.2]

theorem popMin_min {less : C → C → Bool}
    (hasymm : ∀ a b : C, less a b = true → less b a = false)
    (hneg : ∀ a b c : C, less b a = false → less c b = false → less c a = false)
    {l rest : List (Node K C)} {m : Node K C}
    (h : popMin less l = some (m, rest)) : ∀ x ∈ l, less x.Cost m.Cost = false := by
  have hirr : ∀ a : C, less a a = false := by
    intro a
    cases ha : less a a with
    | false => rfl
    | true => exact ha ▸ hasymm a a ha
  induction l generalizing m rest with
  | nil => simp [popMin] at h
  | cons x xs ih =>
    simp only [popMin] at h
    cases hx : popMin less xs with
    | none =>
      rw [hx] at h; simp at h
      have hnil : xs = [] := popMin_none_iff.mp hx
      subst hnil
      intro y hy
      simp at hy
      subst hy
      rw [← h.1]
      exact hirr _
    | some p =>
      obtain ⟨m', rest'⟩ := p
      rw [hx] at h
      by_cases hc : less m'.Cost x.Cost
      · simp [hc] at h
        intro y hy
        rcases List.mem_cons.mp hy with rfl | hy'
        · rw [← h.1]; exact hasymm _ _ hc
        · rw [← h.1]; exact ih hx y hy'
      · simp [hc] at h
        simp only [Bool.not_eq_true] at hc
        intro y hy
        rcases List.mem_cons.mp hy with rfl | hy'
        · rw [← h.1]; exact hirr _
        · rw [← h.1]
          exact hneg _ _ _ hc (ih hx y hy')

end PopMinLemmas

section LoopEquations

variable {K C : Type} [DecidableEq K]
variable {acc : C → K → K → C × Bool} {less : C → C → Bool} {edges : K → List K}

theorem dijkstraLoop_empty {fuel : Nat} {opn costs : List (Node K C)}
    (h : popMin less opn = none) :
    dijkstraLoop acc less edges fuel opn costs = some costs := by
  cases fuel <;> simp [dijkstraLoop, h]

theorem dijkstraLoop_zero {opn costs rest : List (Node K C)} {m : Node K C}
    (h : popMin less opn = some (m, rest)) :
    dijkstraLoop acc less edges 0 opn costs = none := by
  simp [dijkstraLoop, h]

theorem dijkstraLoop_stale {fuel : Nat} {opn costs rest : List (Node K C)}
    {m n : Node K C} (h : popMin less opn = some (m, rest))
    (h2 : lookupNode costs m.Key = some n) :
    dijkstraLoop acc less edges (fuel + 1) opn costs =
      dijkstraLoop acc less edges fuel rest costs := by
  conv_lhs => rw [dijkstraLoop]
  simp [h, h2]

theorem dijkstraLoop_finalize {fuel : Nat} {opn costs rest : List (Node K C)}
    {m : Node K C} (h : popMin less opn = some (m, rest))
    (h2 : lookupNode costs m.Key = none) :
    dijkstraLoop acc less edges (fuel + 1) opn costs =
      dijkstraLoop acc less edges fuel
        (rest ++ pushList acc m (edges m.Key)) (costs ++ [m]) := by
  conv_lhs => rw [dijkstraLoop]
  simp [h, h2]

theorem pushList_mem {m : Node K C} {dests : List K} {e : Node K C}
    (h : e ∈ pushList acc m dests) :
    ∃ v ∈ dests, (acc m.Cost m.Key v).2 = true ∧
      e = ⟨v, (acc m.Cost m.Key v).1, some m.Key⟩ := by
  unfold pushList at h
  obtain ⟨v, hv, he⟩ := List.mem_filterMap.mp h
  by_cases hok : (acc m.Cost m.Key v).2 = true
  · refine ⟨v, hv, hok, ?_⟩
    simp [hok] at he
    exact he.symm
  · simp [hok] at he

theorem pushList_mem_of {m : Node K C} {dests : List K} {v : K}
    (hv : v ∈ dests) (hok : (acc m.Cost m.Key v).2 = true) :
    (⟨v, (acc m.Cost m.Key v).1, some m.Key⟩ : Node K C) ∈ pushList acc m dests := by
  unfold pushList
  exact List.mem_filterMap.mpr ⟨v, hv, by simp [hok]⟩

theorem pushList_length_le {m : Node K C} {dests : List K} :
    (pushList acc m dests).length ≤ dests.length :=
  List.length_filterMap_le _ _

/-- Once a run completes within some fuel budget, any larger budget
yields the same cost map. -/
theorem dijkstraLoop_fuel_mono {fuel k : Nat} {opn costs res : List (Node K C)}
    (h : dijkstraLoop acc less edges fuel opn costs = some res) :
    dijkstraLoop acc less edges (fuel + k) opn costs = some res := by
  induction fuel generalizing opn costs with
  | zero =>
    cases hp : popMin less opn with
    | none =>
      rw [dijkstraLoop_empty hp] at h
      rw [dijkstraLoop_empty hp]
      exact h
    | some p =>
      obtain ⟨m, rest⟩ := p
      rw [dijkstraLoop_zero hp] at h
      exact absurd h (by simp)
  | succ fuel' ih =>
    cases hp : popMin less opn with
    | none =>
      rw [dijkstraLoop_empty hp] at h
      rw [dijkstraLoop_empty hp]
      exact h
    | some p =>
      obtain ⟨m, rest⟩ := p
      cases hl : lookupNode costs m.Key with
      | some n =>
        rw [dijkstraLoop_stale hp hl] at h
        have := ih h
        rw [Nat.succ_add, dijkstraLoop_stale hp hl]
        exact this
      | none =>
        rw [dijkstraLoop_finalize hp hl] at h
        have := ih h
        rw [Nat.succ_add, dijkstraLoop_finalize hp hl]
        exact this

/-- During a run the cost map only gains entries: every record present
at any intermediate point is present unchanged in the result. -/
theorem dijkstraLoop_extends {fuel : Nat} {opn costs res : List (Node K C)}
    (h : dijkstraLoop acc less edges fuel opn costs = some res) :
    ∀ k n, lookupNode costs k = some n → lookupNode res k = some n := by
  induction fuel generalizing opn costs with
  | zero =>
    cases hp : popMin less opn with
    | none =>
      rw [dijkstraLoop_empty hp] at h
      cases h
      exact fun k n hk => hk
    | some p =>
      obtain ⟨m, rest⟩ := p
      rw [dijkstraLoop_zero hp] at h
      exact absurd h (by simp)
  | succ fuel' ih =>
    cases hp : popMin less opn with
    | none =>
      rw [dijkstraLoop_empty hp] at h
      cases h
      exact fun k n hk => hk
    | some p =>
      obtain ⟨m, rest⟩ := p
      cases hl : lookupNode costs m.Key with
      | some n =>
        rw [dijkstraLoop_stale hp hl] at h
        exact ih h
      | none =>
        rw [dijkstraLoop_finalize hp hl] at h
        intro k n hk
        exact ih h k n (lookupNode_append_some hk)

/-- A run consuming no fuel step returns only when the frontier is
already empty; the cost map keeps its key set duplicate-free. -/
theorem dijkstraLoop_nodup {fuel : Nat} {opn costs res : List (Node K C)}
    (h : dijkstraLoop acc less edges fuel opn costs = some res)
    (hnd : NodupKeys costs) : NodupKeys res := by
  induction fuel generalizing opn costs with
  | zero =>
    cases hp : popMin less opn with
    | none =>
      rw [dijkstraLoop_empty hp] at h
      cases h
      exact hnd
    | some p =>
      obtain ⟨m, rest⟩ := p
      rw [dijkstraLoop_zero hp] at h
      exact absurd h (by simp)
  | succ fuel' ih =>
    cases hp : popMin less opn with
    | none =>
      rw [dijkstraLoop_empty hp] at h
      cases h
      exact hnd
    | some p =>
      obtain ⟨m, rest⟩ := p
      cases hl : lookupNode costs m.Key with
      | some n =>
        rw [dijkstraLoop_stale hp hl] at h
        exact ih h hnd
      | none =>
        rw [dijkstraLoop_finalize hp hl] at h
        exact ih h (nodupKeys_append hnd hl)

end LoopEquations

section Structural

variable {K C : Type} [DecidableEq K]
variable {acc : C → K → K → C × Bool} {less : C → C → Bool} {edges : K → List K}
variable {start : K} {initial : C}

/-- Structural invariant tying the frontier to the cost map during the
Dijkstra loop.  It holds for arbitrary `less` (no ordering assumptions):
frontier entries with no predecessor are the seed; entries with a
predecessor were pushed while expanding an already-finalized record;
records point back at strictly earlier records; the seed record is
always the first one finalized. -/
def StructInv (acc : C → K → K → C × Bool) (edges : K → List K) (start : K)
    (initial : C) (opn costs : List (Node K C)) : Prop :=
  NodupKeys costs ∧
  (∀ e ∈ opn, e.Prev = none → e.Key = start ∧ e.Cost = initial) ∧
  (∀ n ∈ costs, n.Prev = none → n.Key = start ∧ n.Cost = initial) ∧
  (∀ e ∈ opn, ∀ p, e.Prev = some p → ∃ np, lookupNode costs p = some np ∧
    e.Key ∈ edges p ∧ acc np.Cost p e.Key = (e.Cost, true)) ∧
  (∀ n ∈ costs, ∀ p, n.Prev = some p → ∃ np, lookupNode costs p = some np ∧
    keyIdx costs p < keyIdx costs n.Key ∧ n.Key ∈ edges p ∧
    acc np.Cost p n.Key = (n.Cost, true)) ∧
  (costs = [] → opn = [⟨start, initial, none⟩]) ∧
  (costs ≠ [] → lookupNode costs start = some ⟨start, initial, none⟩)

/-- What the structural invariant guarantees about a returned cost map. -/
def CostsInv (acc : C → K → K → C × Bool) (edges : K → List K) (start : K)
    (initial : C) (costs : List (Node K C)) : Prop :=
  NodupKeys costs ∧
  (∀ n ∈ costs, n.Prev = none → n.Key = start ∧ n.Cost = initial) ∧
  (∀ n ∈ costs, ∀ p, n.Prev = some p → ∃ np, lookupNode costs p = some np ∧
    keyIdx costs p < keyIdx costs n.Key ∧ n.Key ∈ edges p ∧
    acc np.Cost p n.Key = (n.Cost, true)) ∧
  costs ≠ [] ∧
  lookupNode costs start = some ⟨start, initial, none⟩

theorem structInv_init :
    StructInv acc edges start initial [⟨start, initial, none⟩]
      ([] : List (Node K C)) := by
  refine ⟨List.nodup_nil, ?_, ?_, ?_, ?_, fun _ => rfl, fun hc => absurd rfl hc⟩
  · intro e he _
    simp at he
    simp [he]
  · intro n hn; simp at hn
  · intro e he p hp
    simp at he
    simp [he] at hp
  · intro n hn; simp at hn

theorem structRun {fuel : Nat} {opn costs res : List (Node K C)}
    (hinv : StructInv acc edges start initial opn costs)
    (h : dijkstraLoop acc less edges fuel opn costs = some res) :
    CostsInv acc edges start initial res := by
  induction fuel generalizing opn costs with
  | zero =>
    cases hp : popMin less opn with
    | none =>
      rw [dijkstraLoop_empty hp] at h
      cases h
      obtain ⟨h1, _, h3, _, h5, h6, h7⟩ := hinv
      have hne : res ≠ [] := by
        intro hc
        rw [popMin_none_iff.mp hp] at h6
        exact absurd (h6 hc).symm (by simp)
      exact ⟨h1, h3, h5, hne, h7 hne⟩
    | some p =>
      obtain ⟨m, rest⟩ := p
      rw [dijkstraLoop_zero hp] at h
      exact absurd h (by simp)
  | succ fuel' ih =>
    cases hp : popMin less opn with
    | none =>
      rw [dijkstraLoop_empty hp] at h
      cases h
      obtain ⟨h1, _, h3, _, h5, h6, h7⟩ := hinv
      have hne : res ≠ [] := by
        intro hc
        rw [popMin_none_iff.mp hp] at h6
        exact absurd (h6 hc).symm (by simp)
      exact ⟨h1, h3, h5, hne, h7 hne⟩
    | some p =>
      obtain ⟨m, rest⟩ := p
      obtain ⟨h1, h2, h3, h4, h5, h6, h7⟩ := hinv
      have hmem : m ∈ opn := popMin_mem hp
      have hsub : ∀ x ∈ rest, x ∈ opn := popMin_rest_subset hp
      cases hl : lookupNode costs m.Key with
      | some n =>
        rw [dijkstraLoop_stale hp hl] at h
        refine ih ⟨h1, fun e he => h2 e (hsub e he), h3,
          fun e he => h4 e (hsub e he), h5, ?_, h7⟩ h
        intro hc
        subst hc
        simp [lookupNode] at hl
      | none =>
        rw [dijkstraLoop_finalize hp hl] at h
        have hmkey : lookupNode (costs ++ [m]) m.Key = some m := by
          rw [lookupNode_append_none hl]
          simp [lookupNode]
        refine ih ⟨nodupKeys_append h1 hl, ?_, ?_, ?_, ?_, ?_, ?_⟩ h
        · -- frontier entries with no predecessor
          intro e he hnone
          rcases List.mem_append.mp he with h' | h'
          · exact h2 e (hsub e h') hnone
          · obtain ⟨v, _, _, he'⟩ := pushList_mem h'
            rw [he'] at hnone
            simp at hnone
        · -- records with no predecessor
          intro n hn hnone
          rcases List.mem_append.mp hn with h' | h'
          · exact h3 n h' hnone
          · simp at h'
            subst h'
            exact h2 n hmem hnone
        · -- frontier entries with a predecessor
          intro e he p hp'
          rcases List.mem_append.mp he with h' | h'
          · obtain ⟨np, hnp, hed, hacc⟩ := h4 e (hsub e h') p hp'
            exact ⟨np, lookupNode_append_some hnp, hed, hacc⟩
          · obtain ⟨v, hv, hok, he'⟩ := pushList_mem h'
            rw [he'] at hp'
            simp at hp'
            subst hp'
            refine ⟨m, hmkey, by rw [he']; exact hv, ?_⟩
            rw [he']
            have : acc m.Cost m.Key v =
                ((acc m.Cost m.Key v).1, (acc m.Cost m.Key v).2) := rfl
            rw [hok] at this
            exact this
        · -- records with a predecessor
          intro n hn p hp'
          rcases List.mem_append.mp hn with h' | h'
          · obtain ⟨np, hnp, hidx, hed, hacc⟩ := h5 n h' p hp'
            have hkn : lookupNode costs n.Key = some n :=
              lookupNode_of_mem_nodup h1 h'
            refine ⟨np, lookupNode_append_some hnp, ?_, hed, hacc⟩
            rw [keyIdx_append_some hnp, keyIdx_append_some hkn]
            exact hidx
          · simp at h'
            subst h'
            obtain ⟨np, hnp, hed, hacc⟩ := h4 n hmem p hp'
            refine ⟨np, lookupNode_append_some hnp, ?_, hed, hacc⟩
            rw [keyIdx_append_some hnp, keyIdx_append_self hl]
            exact keyIdx_lt_length hnp
        · intro hc
          exact absurd hc (by simp)
        · -- the seed record is first
          intro _
          by_cases hc : costs = []
          · subst hc
            rw [h6 rfl] at hp
            simp [popMin] at hp
            rw [← hp.1] at hmkey ⊢
            simpa using hmkey
          · exact lookupNode_append_some (h7 hc)

end Structural

section Walk

variable {K C : Type} [DecidableEq K] [Inhabited K] [Inhabited C]
variable {acc : C → K → K → C × Bool} {less : C → C → Bool} {edges : K → List K}
variable {start : K} {initial : C} {goal : K}

theorem shortestPathLoop_missing {costs : List (Node K C)} {fuel : Nat}
    {current : K} {rest : List K} (h : lookupNode costs current = none) :
    shortestPathLoop less costs goal fuel (current :: rest) =
      some (Except.error (newNotReachableError costs less goal)) := by
  cases fuel <;> simp [shortestPathLoop, h]

theorem shortestPathLoop_stop {costs : List (Node K C)} {fuel : Nat}
    {current : K} {rest : List K} {node : Node K C}
    (h : lookupNode costs current = some node) (hprev : node.Prev = none) :
    shortestPathLoop less costs goal fuel (current :: rest) =
      some (Except.ok (current :: rest)) := by
  cases fuel <;> simp [shortestPathLoop, h, hprev]

theorem shortestPathLoop_step {costs : List (Node K C)} {fuel : Nat}
    {current p : K} {rest : List K} {node : Node K C}
    (h : lookupNode costs current = some node) (hprev : node.Prev = some p) :
    shortestPathLoop less costs goal (fuel + 1) (current :: rest) =
      shortestPathLoop less costs goal fuel (p :: current :: rest) := by
  conv_lhs => rw [shortestPathLoop]
  simp [h, hprev]

theorem shortestPathLoop_step_zero {costs : List (Node K C)}
    {current p : K} {rest : List K} {node : Node K C}
    (h : lookupNode costs current = some node) (hprev : node.Prev = some p) :
    shortestPathLoop less costs goal 0 (current :: rest) = none := by
  simp [shortestPathLoop, h, hprev]

/-- Over a cost map satisfying the structural invariant, the predecessor
walk terminates within fuel bounded by the current record's finalization
index, producing a path that starts at `start`, keeps the accumulated
suffix, and whose consecutive pairs are admissible transitions. -/
theorem walkSpec {costs : List (Node K C)}
    (hci : CostsInv acc edges start initial costs) :
    ∀ fuel current node rest, lookupNode costs current = some node →
      keyIdx costs current < fuel →
      chainOk acc edges costs (current :: rest) = true →
      ∃ pre, shortestPathLoop less costs goal fuel (current :: rest) =
          some (Except.ok (pre ++ current :: rest)) ∧
        (pre ++ current :: rest).head? = some start ∧
        chainOk acc edges costs (pre ++ current :: rest) = true := by
  obtain ⟨hnd, hroot, hstep, _, _⟩ := hci
  intro fuel
  induction fuel with
  | zero => intro current node rest _ hlt; omega
  | succ f ih =>
    intro current node rest hcur hlt hchain
    have hkey : node.Key = current := lookupNode_key hcur
    cases hprev : node.Prev with
    | none =>
      have hst := hroot node (lookupNode_mem hcur) hprev
      refine ⟨[], shortestPathLoop_stop hcur hprev, ?_, by simpa using hchain⟩
      simp [← hkey, hst.1]
    | some p =>
      obtain ⟨np, hnp, hidx, hed, hacc⟩ :=
        hstep node (lookupNode_mem hcur) p hprev
      rw [hkey] at hidx hed hacc
      have hlt' : keyIdx costs p < f := by omega
      have hchain' : chainOk acc edges costs (p :: current :: rest) = true := by
        simp only [chainOk, hnp, hchain, Bool.and_true]
        simp [hed, hacc]
      obtain ⟨pre', hrun, hhead, hch⟩ := ih p np (current :: rest) hnp hlt' hchain'
      refine ⟨pre' ++ [p], ?_, ?_, ?_⟩
      · rw [shortestPathLoop_step hcur hprev, hrun]
        simp
      · simpa using hhead
      · simpa using hch

end Walk

theorem getLast_of_concat {α : Type} (l : List α) (a : α) :
    (l ++ [a]).getLast? = some a := by
  induction l with
  | nil => rfl
  | cons x xs ih =>
    rw [List.cons_append, List.getLast?_cons, ih]
    rfl

section ConcreteWitness

/-- Strict order on naturals used by the concrete witness runs. -/
def natLess (a b : Nat) : Bool := decide (a < b)

/-- Witness accumulator: add the destination, always admissible. -/
def wAcc (c : Nat) (_u v : Nat) : Nat × Bool := (c + v, true)

/-- Witness adjacency: `0 → 1, 2`; `1` and `2` are terminal. -/
def wEdges (u : Nat) : List Nat := if u = 0 then [1, 2] else []

/-- Cost map returned by the witness run `Dijkstra 5 0 wAcc 0 natLess wEdges`. -/
def wCosts : List (Node Nat Nat) :=
  [⟨0, 0, none⟩, ⟨1, 1, some 0⟩, ⟨2, 2, some 0⟩]

end ConcreteWitness

/-- Claim C4: throughout any single run of `Dijkstra`, the cost map only
gains entries: a record present at any intermediate configuration
persists unchanged into the result, key sets stay duplicate-free (each
state is finalized at most once), and popping an entry whose state is
already finalized steps the loop without modifying the map. -/
theorem costMap_append_only {K C : Type} [DecidableEq K]
    (acc : C → K → K → C × Bool) (less : C → C → Bool) (edges : K → List K)
    (fuel : Nat) (opn costs res : List (Node K C))
    (h : dijkstraLoop acc less edges fuel opn costs = some res) :
    (∀ k n, lookupNode costs k = some n → lookupNode res k = some n) ∧
    (NodupKeys costs → NodupKeys res) ∧
    (∀ (m : Node K C) (rest : List (Node K C)) (n : Node K C) (fuel' : Nat),
      popMin less opn = some (m, rest) → lookupNode costs m.Key = some n →
      dijkstraLoop acc less edges (fuel' + 1) opn costs =
        dijkstraLoop acc less edges fuel' rest costs) :=
  ⟨dijkstraLoop_extends h, dijkstraLoop_nodup h,
    fun _ _ _ _ hp hl => dijkstraLoop_stale hp hl⟩

theorem costMap_append_only_witness :
    lookupNode wCosts 0 = some ⟨0, 0, none⟩ ∧ NodupKeys wCosts :=
  ⟨(costMap_append_only wAcc natLess wEdges 4
      [⟨1, 1, some 0⟩, ⟨2, 2, some 0⟩] [⟨0, 0, none⟩] wCosts (by rfl)).1 0 _ rfl,
   (costMap_append_only wAcc natLess wEdges 4
      [⟨1, 1, some 0⟩, ⟨2, 2, some 0⟩] [⟨0, 0, none⟩] wCosts (by rfl)).2.1
      (by simp [NodupKeys])⟩

/-- Claim C5: every completed run's cost map has a record for `start`
(the seed is pushed unconditionally, without consulting the
accumulator), and that record has cost `initial` and no predecessor
whenever the accumulator never produces a cost below `initial`.  (The
proof gives the second part unconditionally.) -/
theorem start_record_unconditional {K C : Type} [DecidableEq K]
    (fuel : Nat) (start : K) (acc : C → K → K → C × Bool) (initial : C)
    (less : C → C → Bool) (edges : K → List K) (costs : List (Node K C))
    (h : Dijkstra fuel start acc initial less edges = some costs) :
    (∃ n, lookupNode costs start = some n) ∧
    ((∀ c u v, (acc c u v).2 = true → less (acc c u v).1 initial = false) →
      lookupNode costs start = some ⟨start, initial, none⟩) := by
  unfold Dijkstra at h
  have hci := structRun structInv_init h
  exact ⟨⟨_, hci.2.2.2.2⟩, fun _ => hci.2.2.2.2⟩

theorem start_record_unconditional_witness :
    lookupNode wCosts 0 = some ⟨0, 0, none⟩ :=
  (start_record_unconditional 5 0 wAcc 0 natLess wEdges wCosts (by rfl)).2
    (by intro c u v _; simp [wAcc, natLess])

/-- Claim C7: on any cost map produced by `Dijkstra(start, ...)`,
resolving the path to `start` itself succeeds with the single-element
path `[start]`, whatever the walk's fuel budget. -/
theorem shortestPath_at_start {K C : Type} [DecidableEq K] [Inhabited K] [Inhabited C]
    (fuel : Nat) (start : K) (acc : C → K → K → C × Bool) (initial : C)
    (less : C → C → Bool) (edges : K → List K) (costs : List (Node K C))
    (h : Dijkstra fuel start acc initial less edges = some costs) :
    ∀ spFuel, ShortestPath less costs start spFuel = some (Except.ok [start]) := by
  unfold Dijkstra at h
  have hstart := (structRun structInv_init h).2.2.2.2
  intro spFuel
  unfold ShortestPath
  rw [hstart]
  exact shortestPathLoop_stop hstart rfl

theorem shortestPath_at_start_witness :
    ShortestPath natLess wCosts 0 3 = some (Except.ok [0]) :=
  shortestPath_at_start 5 0 wAcc 0 natLess wEdges wCosts (by rfl) 3

/-- Claim C2: for a cost map produced by `Dijkstra` and any goal with a
record, `ShortestPath` returns a nonempty path from `start` to `goal`
whose consecutive pairs `(p, q)` are transitions jointly admitted by
`edges` and the accumulator at `p`'s finalized cost. -/
theorem shortestPath_valid_path {K C : Type} [DecidableEq K] [Inhabited K] [Inhabited C]
    (fuel : Nat) (start : K) (acc : C → K → K → C × Bool) (initial : C)
    (less : C → C → Bool) (edges : K → List K) (costs : List (Node K C))
    (goal : K) (n : Node K C)
    (h : Dijkstra fuel start acc initial less edges = some costs)
    (hgoal : lookupNode costs goal = some n) :
    ∃ path, ShortestPath less costs goal costs.length = some (Except.ok path) ∧
      path ≠ [] ∧ path.head? = some start ∧ path.getLast? = some goal ∧
      chainOk acc edges costs path = true := by
  unfold Dijkstra at h
  have hci := structRun structInv_init h
  obtain ⟨pre, hrun, hhead, hch⟩ :=
    walkSpec hci costs.length goal n [] hgoal (keyIdx_lt_length hgoal)
      (by simp [chainOk])
  refine ⟨pre ++ [goal], ?_, by simp, by simpa using hhead,
    getLast_of_concat pre goal, by simpa using hch⟩
  unfold ShortestPath
  rw [hgoal]
  simpa using hrun

theorem shortestPath_valid_path_witness :
    ∃ path, ShortestPath natLess wCosts 2 wCosts.length = some (Except.ok path) ∧
      path ≠ [] ∧ path.head? = some 0 ∧ path.getLast? = some 2 ∧
      chainOk wAcc wEdges wCosts path = true :=
  shortestPath_valid_path 5 0 wAcc 0 natLess wEdges wCosts 2 ⟨2, 2, some 0⟩ (by rfl) (by rfl)

/-- Claim C6: in a cost map produced by `Dijkstra`, every record's
predecessor has a record of its own, predecessor links strictly decrease
the finalization index (so they form a well-founded tree and never
cycle), and consequently the predecessor walk of `ShortestPath`
terminates successfully for every recorded goal — its defensive
missing-predecessor branch is never taken. -/
theorem predecessor_links_wellFounded {K C : Type} [DecidableEq K] [Inhabited K]
    [Inhabited C]
    (fuel : Nat) (start : K) (acc : C → K → K → C × Bool) (initial : C)
    (less : C → C → Bool) (edges : K → List K) (costs : List (Node K C))
    (h : Dijkstra fuel start acc initial less edges = some costs) :
    (∀ n ∈ costs, ∀ p, n.Prev = some p → (lookupNode costs p).isSome = true) ∧
    (∀ n ∈ costs, ∀ p, n.Prev = some p → keyIdx costs p < keyIdx costs n.Key) ∧
    (∀ goal n, lookupNode costs goal = some n →
      ∃ path, ShortestPath less costs goal costs.length =
        some (Except.ok path)) := by
  unfold Dijkstra at h
  have hci := structRun structInv_init h
  refine ⟨?_, ?_, ?_⟩
  · intro n hn p hp
    obtain ⟨np, hnp, -⟩ := hci.2.2.1 n hn p hp
    simp [hnp]
  · intro n hn p hp
    obtain ⟨np, hnp, hidx, -⟩ := hci.2.2.1 n hn p hp
    exact hidx
  · intro goal n hgoal
    obtain ⟨pre, hrun, -⟩ :=
      walkSpec hci costs.length goal n [] hgoal (keyIdx_lt_length hgoal)
        (by simp [chainOk])
    refine ⟨pre ++ [goal], ?_⟩
    unfold ShortestPath
    rw [hgoal]
    simpa using hrun

theorem predecessor_links_wellFounded_witness :
    (lookupNode wCosts 0).isSome = true ∧ keyIdx wCosts 0 < keyIdx wCosts 1 :=
  ⟨(predecessor_links_wellFounded 5 0 wAcc 0 natLess wEdges wCosts (by rfl)).1
      ⟨1, 1, some 0⟩ (by simp [wCosts]) 0 rfl,
   (predecessor_links_wellFounded 5 0 wAcc 0 natLess wEdges wCosts (by rfl)).2.1
      ⟨1, 1, some 0⟩ (by simp [wCosts]) 0 rfl⟩

section FilterMin

variable {V : Type} {p : V → Nat → Bool} {pred0 : V → Bool} {less : V → V → Bool}

theorem filterMinByAux_ok (hp : ∀ x i, p x i = pred0 x) :
    ∀ (l : List V) (i : Nat) (m0 : V) (ok0 : Bool),
      (filterMinByAux p less l i (m0, ok0)).2 = (ok0 || l.any pred0) := by
  intro l
  induction l with
  | nil => intro i m0 ok0; simp [filterMinByAux]
  | cons x xs ih =>
    intro i m0 ok0
    simp only [filterMinByAux, hp]
    by_cases hx : pred0 x = true
    · cases ok0 <;> by_cases hl : less x m0 = true <;>
        simp [hx, hl, ih, List.any_cons]
    · simp only [Bool.not_eq_true] at hx
      simp [hx, ih, List.any_cons]

theorem filterMinByAux_min (hp : ∀ x i, p x i = pred0 x)
    (hasymm : ∀ a b : V, less a b = true → less b a = false)
    (hneg : ∀ a b c : V, less b a = false → less c b = false → less c a = false) :
    ∀ (l : List V) (i : Nat) (m0 : V),
      less m0 (filterMinByAux p less l i (m0, true)).1 = false ∧
      ((filterMinByAux p less l i (m0, true)).1 = m0 ∨
        ((filterMinByAux p less l i (m0, true)).1 ∈ l ∧
          pred0 (filterMinByAux p less l i (m0, true)).1 = true)) ∧
      (∀ x ∈ l, pred0 x = true →
        less x (filterMinByAux p less l i (m0, true)).1 = false) := by
  have hirr : ∀ a : V, less a a = false := by
    intro a
    cases ha : less a a with
    | false => rfl
    | true => exact ha ▸ hasymm a a ha
  intro l
  induction l with
  | nil =>
    intro i m0
    simp [filterMinByAux, hirr]
  | cons x xs ih =>
    intro i m0
    simp only [filterMinByAux, hp]
    by_cases hx : pred0 x = true
    · by_cases hl : less x m0 = true
      · simp only [hx, hl, Bool.not_true, Bool.false_eq_true, if_false, if_true,
          Bool.not_false, if_true]
        obtain ⟨ih1, ih2, ih3⟩ := ih (i + 1) x
        refine ⟨hneg _ _ _ ih1 (hasymm _ _ hl), ?_, ?_⟩
        · rcases ih2 with h | h
          · exact Or.inr ⟨by simp [h], by rw [h]; exact hx⟩
          · exact Or.inr ⟨List.mem_cons_of_mem _ h.1, h.2⟩
        · intro y hy hpy
          rcases List.mem_cons.mp hy with rfl | hy'
          · exact ih1
          · exact ih3 y hy' hpy
      · simp only [Bool.not_eq_true] at hl
        simp only [hx, hl, Bool.not_true, Bool.false_eq_true, if_false,
          Bool.not_false, if_true]
        obtain ⟨ih1, ih2, ih3⟩ := ih (i + 1) m0
        refine ⟨ih1, ?_, ?_⟩
        · rcases ih2 with h | h
          · exact Or.inl h
          · exact Or.inr ⟨List.mem_cons_of_mem _ h.1, h.2⟩
        · intro y hy hpy
          rcases List.mem_cons.mp hy with rfl | hy'
          · exact hneg _ _ _ ih1 hl
          · exact ih3 y hy' hpy
    · simp only [Bool.not_eq_true] at hx
      simp only [hx, Bool.not_false, if_true]
      obtain ⟨ih1, ih2, ih3⟩ := ih (i + 1) m0
      refine ⟨ih1, ?_, ?_⟩
      · rcases ih2 with h | h
        · exact Or.inl h
        · exact Or.inr ⟨List.mem_cons_of_mem _ h.1, h.2⟩
      · intro y hy hpy
        rcases List.mem_cons.mp hy with rfl | hy'
        · rw [hx] at hpy; exact absurd hpy (by simp)
        · exact ih3 y hy' hpy

theorem filterMinByAux_from_false (hp : ∀ x i, p x i = pred0 x)
    (hasymm : ∀ a b : V, less a b = true → less b a = false)
    (hneg : ∀ a b c : V, less b a = false → less c b = false → less c a = false) :
    ∀ (l : List V) (i : Nat) (m0 : V),
      ((filterMinByAux p less l i (m0, false)).2 = l.any pred0) ∧
      ((filterMinByAux p less l i (m0, false)).2 = false →
        filterMinByAux p less l i (m0, false) = (m0, false)) ∧
      ((filterMinByAux p less l i (m0, false)).2 = true →
        (filterMinByAux p less l i (m0, false)).1 ∈ l ∧
        pred0 (filterMinByAux p less l i (m0, false)).1 = true ∧
        (∀ x ∈ l, pred0 x = true →
          less x (filterMinByAux p less l i (m0, false)).1 = false)) := by
  intro l
  induction l with
  | nil => intro i m0; simp [filterMinByAux]
  | cons x xs ih =>
    intro i m0
    simp only [filterMinByAux, hp]
    by_cases hx : pred0 x = true
    · simp only [hx, Bool.not_true, Bool.false_eq_true, if_false, Bool.not_false,
        if_true]
      have hok : (filterMinByAux p less xs (i + 1) (x, true)).2 =
          (true || xs.any pred0) := filterMinByAux_ok hp xs (i + 1) x true
      obtain ⟨m1, m2, m3⟩ := filterMinByAux_min hp hasymm hneg xs (i + 1) x
      refine ⟨by simp [hok, List.any_cons, hx], by simp [hok], fun _ => ?_⟩
      refine ⟨?_, ?_, ?_⟩
      · rcases m2 with h | h
        · simp [h]
        · exact List.mem_cons_of_mem _ h.1
      · rcases m2 with h | h
        · rw [h]; exact hx
        · exact h.2
      · intro y hy hpy
        rcases List.mem_cons.mp hy with rfl | hy'
        · exact m1
        · exact m3 y hy' hpy
    · simp only [Bool.not_eq_true] at hx
      simp only [hx, Bool.not_false, if_true]
      obtain ⟨ih1, ih2, ih3⟩ := ih (i + 1) m0
      refine ⟨by simp [ih1, List.any_cons, hx], ih2, fun h2 => ?_⟩
      obtain ⟨g1, g2, g3⟩ := ih3 h2
      refine ⟨List.mem_cons_of_mem _ g1, g2, ?_⟩
      intro y hy hpy
      rcases List.mem_cons.mp hy with rfl | hy'
      · rw [hx] at hpy; exact absurd hpy (by simp)
      · exact g3 y hy' hpy

end FilterMin

section MinCost

variable {K C : Type} [DecidableEq K] [Inhabited K] [Inhabited C]

/-- Behaviour of `minCostNode` over the full key list of a cost map:
the `ok` flag is non-emptiness, and on success the returned key has a
record no other record undercuts. -/
theorem minCostNode_spec {less : C → C → Bool} {costs : List (Node K C)}
    (hnd : NodupKeys costs)
    (hasymm : ∀ a b : C, less a b = true → less b a = false)
    (hneg : ∀ a b c : C, less b a = false → less c b = false → less c a = false) :
    ((minCostNode (getKeys costs) costs less).2 = !costs.isEmpty) ∧
    (costs ≠ [] →
      ∃ ns, lookupNode costs (minCostNode (getKeys costs) costs less).1 = some ns ∧
        ∀ n ∈ costs, less n.Cost ns.Cost = false) := by
  classical
  set pred0 : K → Bool := fun node => (lookupNode costs node).isSome with hpred0
  set lessK : K → K → Bool := fun i j =>
    less ((lookupNode costs i).getD default).Cost
      ((lookupNode costs j).getD default).Cost with hlessK
  have hasymmK : ∀ a b : K, lessK a b = true → lessK b a = false :=
    fun a b h => hasymm _ _ h
  have hnegK : ∀ a b c : K, lessK b a = false → lessK c b = false →
      lessK c a = false := fun a b c h1 h2 => hneg _ _ _ h1 h2
  have hp : ∀ (x : K) (i : Nat),
      (fun (node : K) (_ : Nat) => (lookupNode costs node).isSome) x i = pred0 x :=
    fun x i => rfl
  obtain ⟨f1, f2, f3⟩ :=
    filterMinByAux_from_false hp hasymmK hnegK (getKeys costs) 0
      default
  have hany : (getKeys costs).any pred0 = !costs.isEmpty := by
    cases costs with
    | nil => simp [getKeys]
    | cons n rest =>
      simp only [List.isEmpty_cons, Bool.not_false]
      refine List.any_eq_true.mpr ⟨n.Key, ?_, ?_⟩
      · simp [getKeys]
      · exact lookupNode_isSome_of_mem (by simp)
  constructor
  · show (filterMinByAux (fun (node : K) (_ : Nat) => (lookupNode costs node).isSome)
      lessK (getKeys costs) 0 (default, false)).2 = _
    rw [f1, hany]
  · intro hne
    have h2 : (filterMinByAux (fun (node : K) (_ : Nat) => (lookupNode costs node).isSome)
        lessK (getKeys costs) 0 (default, false)).2 = true := by
      rw [f1, hany]
      cases costs with
      | nil => exact absurd rfl hne
      | cons n rest => simp
    obtain ⟨g1, g2, g3⟩ := f3 h2
    rw [hpred0] at g2
    simp only [Option.isSome_iff_exists] at g2
    obtain ⟨ns, hns⟩ := g2
    refine ⟨ns, hns, ?_⟩
    intro n hn
    have hkey : pred0 n.Key = true := lookupNode_isSome_of_mem hn
    have := g3 n.Key (by simpa [getKeys] using List.mem_map_of_mem Node.Key hn) hkey
    rw [hlessK] at this
    simp only at this
    rw [lookupNode_of_mem_nodup hnd hn, hns] at this
    simpa using this

end MinCost

section ErrorAnalysis

variable {K C : Type} [DecidableEq K] [Inhabited K] [Inhabited C]
variable {less : C → C → Bool} {goal : K}

theorem shortestPathLoop_error_stuck {costs : List (Node K C)} :
    ∀ (fuel : Nat) (current : K) (rest : List K) (e : NotReachableError K C),
      (Stuck costs current → Stuck costs goal) →
      shortestPathLoop less costs goal fuel (current :: rest) =
        some (Except.error e) →
      e = newNotReachableError costs less goal ∧ Stuck costs goal := by
  intro fuel
  induction fuel with
  | zero =>
    intro current rest e hlink h
    cases hcur : lookupNode costs current with
    | none =>
      rw [shortestPathLoop_missing hcur] at h
      simp at h
      exact ⟨h.symm, hlink (Stuck.missing hcur)⟩
    | some node =>
      cases hprev : node.Prev with
      | none => rw [shortestPathLoop_stop hcur hprev] at h; simp at h
      | some p => rw [shortestPathLoop_step_zero hcur hprev] at h; simp at h
  | succ f ih =>
    intro current rest e hlink h
    cases hcur : lookupNode costs current with
    | none =>
      rw [shortestPathLoop_missing hcur] at h
      simp at h
      exact ⟨h.symm, hlink (Stuck.missing hcur)⟩
    | some node =>
      cases hprev : node.Prev with
      | none => rw [shortestPathLoop_stop hcur hprev] at h; simp at h
      | some p =>
        rw [shortestPathLoop_step hcur hprev] at h
        exact ih p (current :: rest) e
          (fun hs => hlink (Stuck.step hcur hprev hs)) h

theorem stuck_shortestPathLoop_error {costs : List (Node K C)} {k : K}
    (hs : Stuck costs k) :
    ∀ rest, ∃ fuel, shortestPathLoop less costs goal fuel (k :: rest) =
      some (Except.error (newNotReachableError costs less goal)) := by
  induction hs with
  | missing hk => exact fun rest => ⟨0, shortestPathLoop_missing hk⟩
  | step hk hp _ ih =>
    intro rest
    obtain ⟨f, hf⟩ := ih _
    exact ⟨f + 1, by rw [shortestPathLoop_step hk hp]; exact hf⟩

end ErrorAnalysis

/-- Claim C3: `ShortestPath` returns a `NotReachableError` exactly when
the predecessor walk from the goal gets stuck (the goal has no record,
or a predecessor reference is missing); an absent goal fails with no
walking (zero fuel suffices); and the error always carries the supplied
cost map, the requested goal, `StartingUnknown` iff the map is empty,
and — on a non-empty map — a `Start` key holding a record no other
record undercuts under `less`. -/
theorem notReachable_error_conditions {K C : Type} [DecidableEq K] [Inhabited K]
    [Inhabited C] (less : C → C → Bool) (costs : List (Node K C)) (goal : K)
    (hnd : NodupKeys costs)
    (hasymm : ∀ a b : C, less a b = true → less b a = false)
    (hneg : ∀ a b c : C, less b a = false → less c b = false → less c a = false) :
    (∀ fuel e, ShortestPath less costs goal fuel = some (Except.error e) →
      e = newNotReachableError costs less goal ∧ Stuck costs goal) ∧
    (Stuck costs goal → ∃ fuel, ShortestPath less costs goal fuel =
      some (Except.error (newNotReachableError costs less goal))) ∧
    (lookupNode costs goal = none → ShortestPath less costs goal 0 =
      some (Except.error (newNotReachableError costs less goal))) ∧
    (newNotReachableError costs less goal).Costs = costs ∧
    (newNotReachableError costs less goal).Goal = goal ∧
    (newNotReachableError costs less goal).StartingUnknown = costs.isEmpty ∧
    (costs ≠ [] →
      ∃ ns, lookupNode costs (newNotReachableError costs less goal).Start = some ns ∧
        ∀ n ∈ costs, less n.Cost ns.Cost = false) := by
  obtain ⟨hflag, hmin⟩ := minCostNode_spec hnd hasymm hneg
  refine ⟨?_, ?_, ?_, rfl, rfl, ?_, ?_⟩
  · intro fuel e h
    unfold ShortestPath at h
    cases hg : lookupNode costs goal with
    | none =>
      rw [hg] at h
      simp at h
      exact ⟨h.symm, Stuck.missing hg⟩
    | some n =>
      rw [hg] at h
      exact shortestPathLoop_error_stuck fuel goal [] e (fun hs => hs) h
  · intro hs
    cases hg : lookupNode costs goal with
    | none => exact ⟨0, by unfold ShortestPath; rw [hg]⟩
    | some n =>
      obtain ⟨f, hf⟩ := stuck_shortestPathLoop_error hs []
      exact ⟨f, by unfold ShortestPath; rw [hg]; exact hf⟩
  · intro hg
    unfold ShortestPath
    rw [hg]
  · have heq : (newNotReachableError costs less goal).StartingUnknown
        = !(minCostNode (getKeys costs) costs less).2 := rfl
    rw [heq, hflag]
    simp
  · exact hmin

theorem notReachable_error_conditions_witness :
    ShortestPath natLess wCosts 7 0 =
      some (Except.error (newNotReachableError wCosts natLess 7)) ∧
    (newNotReachableError wCosts natLess 7).StartingUnknown = wCosts.isEmpty := by
  have h := notReachable_error_conditions natLess wCosts 7
    (by simp [NodupKeys, wCosts])
    (by intro a b hab; simp only [natLess, decide_eq_true_eq] at hab ⊢
        simp only [decide_eq_false_iff_not]; omega)
    (by intro a b c h1 h2
        simp only [natLess, decide_eq_false_iff_not] at h1 h2 ⊢
        omega)
  exact ⟨h.2.2.1 (by rfl), h.2.2.2.2.2.1⟩

/-- Claim C8: the closure returned by `CreatePathFinder` resolves every
goal exactly as calling `ShortestPath` directly on the cost map of the
single search run it performed. -/
theorem createPathFinder_equiv {K C : Type} [DecidableEq K] [Inhabited K]
    [Inhabited C] (c : Options K C) (adjacent : Option (K → List K)) (fuel : Nat)
    (start : K) (initial : C) (costs : List (Node K C))
    (hrun : c.DijkstraFuel adjacent fuel start initial = some costs) :
    ∀ goal spFuel, c.CreatePathFinder adjacent fuel start initial goal spFuel =
      c.ShortestPathFuel costs goal spFuel := by
  intro goal spFuel
  simp only [Options.CreatePathFinder, hrun]
  cases h : c.ShortestPathFuel costs goal spFuel with
  | none => rfl
  | some r => cases r with
    | error e => rfl
    | ok p => rfl

/-- The `Options` record used by the witness runs, with an explicit
`Edges` callback. -/
def wOpts : Options Nat Nat := ⟨wAcc, natLess, some wEdges⟩

/-- The witness `Options` record with no `Edges` callback. -/
def wOptsNil : Options Nat Nat := ⟨wAcc, natLess, none⟩

theorem createPathFinder_equiv_witness :
    wOpts.CreatePathFinder none 5 0 0 2 3 = wOpts.ShortestPathFuel wCosts 2 3 :=
  createPathFinder_equiv wOpts none 5 0 0 wCosts (by rfl) 2 3

/-- Claim C9: when `Edges` is nil and the state type offers the
`Adjacent` capability, `Options.Dijkstra` runs the search with that
capability as the edge function; a non-nil `Edges` callback is always
used unchanged, whatever the capability. -/
theorem adjacent_fallback {K C : Type} [DecidableEq K]
    (c : Options K C) (adjFn e : K → List K) (fuel : Nat) (start : K)
    (initial : C) :
    (c.Edges = none → c.DijkstraFuel (some adjFn) fuel start initial =
      Dijkstra fuel start c.Accumulator initial c.Less adjFn) ∧
    (c.Edges = some e → ∀ adjacent, c.DijkstraFuel adjacent fuel start initial =
      Dijkstra fuel start c.Accumulator initial c.Less e) := by
  constructor
  · intro h
    simp [Options.DijkstraFuel, h]
  · intro h adjacent
    simp [Options.DijkstraFuel, h]

theorem adjacent_fallback_witness :
    wOptsNil.DijkstraFuel (some wEdges) 5 0 0 =
      Dijkstra 5 0 wAcc 0 natLess wEdges ∧
    wOpts.DijkstraFuel none 5 0 0 = Dijkstra 5 0 wAcc 0 natLess wEdges :=
  ⟨(adjacent_fallback wOptsNil wEdges wEdges 5 0 0).1 rfl,
   (adjacent_fallback wOpts wEdges wEdges 5 0 0).2 rfl none⟩

/-- Claim C10: `Dijkstra` is deterministic — two completed runs with
identical start, initial cost and (pure) callbacks produce cost maps
with the same recorded states and the same cost for every state
(the model yields fully identical maps, predecessors included). -/
theorem dijkstra_deterministic {K C : Type} [DecidableEq K]
    (acc : C → K → K → C × Bool) (less : C → C → Bool) (edges : K → List K)
    (start : K) (initial : C) (fuel1 fuel2 : Nat) (res1 res2 : List (Node K C))
    (h1 : Dijkstra fuel1 start acc initial less edges = some res1)
    (h2 : Dijkstra fuel2 start acc initial less edges = some res2) :
    (∀ k, (lookupNode res1 k).isSome = (lookupNode res2 k).isSome) ∧
    (∀ k n1 n2, lookupNode res1 k = some n1 → lookupNode res2 k = some n2 →
      n1.Cost = n2.Cost) := by
  have heq : res1 = res2 := by
    unfold Dijkstra at h1 h2
    rcases Nat.le_total fuel1 fuel2 with h | h
    · obtain ⟨k, rfl⟩ := Nat.le.dest h
      have h3 : dijkstraLoop acc less edges (fuel1 + k)
          [⟨start, initial, none⟩] [] = some res1 := dijkstraLoop_fuel_mono h1
      rw [h3] at h2
      exact Option.some.inj h2
    · obtain ⟨k, rfl⟩ := Nat.le.dest h
      have h3 : dijkstraLoop acc less edges (fuel2 + k)
          [⟨start, initial, none⟩] [] = some res2 := dijkstraLoop_fuel_mono h2
      rw [h3] at h1
      exact (Option.some.inj h1).symm
  subst heq
  exact ⟨fun k => rfl, fun k n1 n2 ha hb => by rw [ha] at hb; cases hb; rfl⟩

theorem dijkstra_deterministic_witness :
    (∀ k, (lookupNode wCosts k).isSome = (lookupNode wCosts k).isSome) ∧
    (∀ k n1 n2, lookupNode wCosts k = some n1 → lookupNode wCosts k = some n2 →
      n1.Cost = n2.Cost) :=
  dijkstra_deterministic wAcc natLess wEdges 0 0 5 7 wCosts wCosts
    (by rfl) (by rfl)

section CounterexampleC1

/-- Accumulator refuting claim C1 as stated: it never decreases the
cost, but it is not monotone in the accumulated-cost argument — from
aggregate `5` the edge `2 → 3` jumps to `50`, from any other aggregate
it is free. -/
def cexAcc (c : Nat) (u v : Nat) : Nat × Bool :=
  if u = 0 ∧ v = 1 then (c + 5, true)
  else if u = 0 ∧ v = 2 then (c + 5, true)
  else if u = 1 ∧ v = 2 then (c + 2, true)
  else if u = 2 ∧ v = 3 then (if c = 5 then (c + 45, true) else (c, true))
  else (c, false)

/-- Diamond graph for the counterexample: `0 → 1, 2`; `1 → 2`; `2 → 3`. -/
def cexEdges (u : Nat) : List Nat :=
  if u = 0 then [1, 2] else if u = 1 then [2] else if u = 2 then [3] else []

/-- The finite state universe of the counterexample configuration. -/
def cexS : Finset Nat := {0, 1, 2, 3}

/-- Cost map the run actually produces on the counterexample. -/
def cexRes : List (Node Nat Nat) :=
  [⟨0, 0, none⟩, ⟨1, 5, some 0⟩, ⟨2, 5, some 0⟩, ⟨3, 50, some 2⟩]

end CounterexampleC1

/-- Counterexample to claim C1 as stated: the configuration is finite,
`natLess` is a strict total order, and the accumulator never decreases
cost along an admissible step, yet the run finalizes state `3` at cost
`50` while the admissible edge sequence `0 → 1 → 2 → 3` accumulates
only `7` — the recorded cost is not the minimum. -/
theorem dijkstra_not_minimal_counterexample :
    (∀ c u v : Nat, (cexAcc c u v).2 = true →
      natLess (cexAcc c u v).1 c = false) ∧
    (∀ a b : Nat, natLess a b = true → natLess b a = false) ∧
    (∀ a b c : Nat, natLess b a = false → natLess c b = false →
      natLess c a = false) ∧
    (∀ a b : Nat, a ≠ b → natLess a b = true ∨ natLess b a = true) ∧
    (0 ∈ cexS ∧ ∀ u ∈ cexS, ∀ v ∈ cexEdges u, v ∈ cexS) ∧
    Dijkstra 10 0 cexAcc 0 natLess cexEdges = some cexRes ∧
    lookupNode cexRes 3 = some ⟨3, 50, some 2⟩ ∧
    Reaches cexAcc cexEdges 0 0 3 7 ∧
    natLess 7 50 = true := by
  refine ⟨?_, ?_, ?_, ?_, ⟨by decide, by decide⟩, by rfl, by rfl, ?_, by decide⟩
  · intro c u v _
    simp only [cexAcc, natLess, decide_eq_false_iff_not]
    split_ifs <;> omega
  · intro a b hab
    simp only [natLess, decide_eq_true_eq] at hab
    simp only [natLess, decide_eq_false_iff_not]
    omega
  · intro a b c h1 h2
    simp only [natLess, decide_eq_false_iff_not] at h1 h2 ⊢
    omega
  · intro a b hab
    rcases Nat.lt_or_ge a b with h | h
    · exact Or.inl (by simp [natLess, h])
    · refine Or.inr (by simp only [natLess, decide_eq_true_eq]; omega)
  · have s1 : Reaches cexAcc cexEdges 0 0 1 (cexAcc 0 0 1).1 :=
      Reaches.step Reaches.refl (by decide) (by decide)
    have s1' : Reaches cexAcc cexEdges 0 0 1 5 := by
      simpa [cexAcc] using s1
    have s2 : Reaches cexAcc cexEdges 0 0 2 (cexAcc 5 1 2).1 :=
      Reaches.step s1' (by decide) (by decide)
    have s2' : Reaches cexAcc cexEdges 0 0 2 7 := by
      simpa [cexAcc] using s2
    have s3 : Reaches cexAcc cexEdges 0 0 3 (cexAcc 7 2 3).1 :=
      Reaches.step s2' (by decide) (by decide)
    simpa [cexAcc] using s3

theorem less_false_refl {V : Type} {less : V → V → Bool}
    (hasymm : ∀ a b : V, less a b = true → less b a = false) (a : V) :
    less a a = false := by
  cases ha : less a a with
  | false => rfl
  | true => exact ha ▸ hasymm a a ha

/-- Invariant for the minimality proof (amended claim C1): all recorded
and pending costs are achievable; recorded costs are minimal; every
admissible edge out of a finalized record is covered by a pending entry
or an existing record; the seed is recorded or still pending; all keys
stay inside the finite universe `S`. -/
structure MinInv [DecidableEq K] (acc : C → K → K → C × Bool) (less : C → C → Bool)
    (edges : K → List K) (start : K) (initial : C) (S : Finset K)
    (opn costs : List (Node K C)) : Prop where
  nodup : NodupKeys costs
  recReach : ∀ n ∈ costs, Reaches acc edges start initial n.Key n.Cost
  openReach : ∀ e ∈ opn, Reaches acc edges start initial e.Key e.Cost
  recMin : ∀ n ∈ costs, ∀ c, Reaches acc edges start initial n.Key c →
    less c n.Cost = false
  expand : ∀ n ∈ costs, ∀ v ∈ edges n.Key, (acc n.Cost n.Key v).2 = true →
    (∃ e ∈ opn, e.Key = v ∧ less (acc n.Cost n.Key v).1 e.Cost = false) ∨
    (lookupNode costs v).isSome = true
  seed : (lookupNode costs start).isSome = true ∨
    ∃ e ∈ opn, e.Key = start ∧ less initial e.Cost = false
  openIn : ∀ e ∈ opn, e.Key ∈ S
  recIn : ∀ n ∈ costs, n.Key ∈ S

section Correctness

variable {K C : Type} [DecidableEq K]
variable {acc : C → K → K → C × Bool} {less : C → C → Bool} {edges : K → List K}
variable {start : K} {initial : C}

/-- Any achievable cost of a not-yet-finalized state is bounded below by
some pending frontier entry. -/
theorem frontierCover
    (hneg : ∀ a b c : C, less b a = false → less c b = false → less c a = false)
    (hstep : ∀ c u v, (acc c u v).2 = true → less (acc c u v).1 c = false)
    (harg : ∀ c c' u v, less c' c = false → (acc c' u v).2 = true →
      (acc c u v).2 = true ∧ less (acc c' u v).1 (acc c u v).1 = false)
    {S : Finset K} {opn costs : List (Node K C)}
    (hinv : MinInv acc less edges start initial S opn costs) :
    ∀ s c, Reaches acc edges start initial s c → lookupNode costs s = none →
      ∃ e ∈ opn, less c e.Cost = false := by
  intro s c hr
  induction hr with
  | refl =>
    intro hnone
    rcases hinv.seed with h | ⟨e, he, _, hle⟩
    · rw [hnone] at h; simp at h
    · exact ⟨e, he, hle⟩
  | @step u c' v hprev hv hok ih =>
    intro hnone
    cases hu : lookupNode costs u with
    | some nu =>
      obtain ⟨nk, nc, np⟩ := nu
      have hknu : nk = u := lookupNode_key hu
      subst hknu
      have hmem' := lookupNode_mem hu
      have hmin := hinv.recMin _ hmem' c' hprev
      obtain ⟨hok2, hle2⟩ := harg nc c' nk v hmin hok
      rcases hinv.expand _ hmem' v hv hok2 with ⟨e, he, _, hle3⟩ | hsome
      · exact ⟨e, he, hneg _ _ _ hle3 hle2⟩
      · rw [hnone] at hsome; simp at hsome
    | none =>
      obtain ⟨e, he, hle⟩ := ih hu
      exact ⟨e, he, hneg _ _ _ hle (hstep c' u v hok)⟩

end Correctness

section Termination

variable {K C : Type} [DecidableEq K]
variable {acc : C → K → K → C × Bool} {less : C → C → Bool} {edges : K → List K}
variable {start : K} {initial : C}

/-- Termination measure: pending entries plus, for each state of the
universe not yet finalized, one slot for its finalization and one per
potential neighbor push. -/
def measureD (edges : K → List K) (S : Finset K) (opn costs : List (Node K C)) :
    Nat :=
  opn.length +
    Finset.sum (S.filter fun u => (lookupNode costs u).isNone = true)
      (fun u => 1 + (edges u).length)

theorem filter_finalize {S : Finset K} {costs : List (Node K C)} {m : Node K C}
    (hl : lookupNode costs m.Key = none) :
    (S.filter fun u => (lookupNode (costs ++ [m]) u).isNone = true) =
      (S.filter fun u => (lookupNode costs u).isNone = true).erase m.Key := by
  ext u
  simp only [Finset.mem_filter, Finset.mem_erase]
  constructor
  · rintro ⟨hu, hnone⟩
    have h1 : lookupNode costs u = none := by
      cases h : lookupNode costs u with
      | none => rfl
      | some n =>
        rw [lookupNode_append_some h] at hnone
        simp at hnone
    have h2 : u ≠ m.Key := by
      intro he
      rw [lookupNode_append_none h1, he] at hnone
      simp [lookupNode] at hnone
    exact ⟨h2, hu, by rw [h1]; rfl⟩
  · rintro ⟨hne, hu, hnone⟩
    have h1 : lookupNode costs u = none := by
      cases h : lookupNode costs u with
      | none => rfl
      | some n => rw [h] at hnone; simp at hnone
    refine ⟨hu, ?_⟩
    rw [lookupNode_append_none h1]
    simp [lookupNode, Ne.symm hne]

theorem minRun
    (hasymm : ∀ a b : C, less a b = true → less b a = false)
    (hneg : ∀ a b c : C, less b a = false → less c b = false → less c a = false)
    (hstep : ∀ c u v, (acc c u v).2 = true → less (acc c u v).1 c = false)
    (harg : ∀ c c' u v, less c' c = false → (acc c' u v).2 = true →
      (acc c u v).2 = true ∧ less (acc c' u v).1 (acc c u v).1 = false)
    {S : Finset K} (hclosed : ∀ u ∈ S, ∀ v ∈ edges u, v ∈ S) :
    ∀ (fuel : Nat) (opn costs : List (Node K C)),
      MinInv acc less edges start initial S opn costs →
      measureD edges S opn costs ≤ fuel →
      ∃ res, dijkstraLoop acc less edges fuel opn costs = some res ∧
        MinInv acc less edges start initial S [] res := by
  intro fuel
  induction fuel with
  | zero =>
    intro opn costs hinv hm
    have hopn : opn = [] := by
      have hz : opn.length = 0 := by unfold measureD at hm; omega
      exact List.length_eq_zero.mp hz
    subst hopn
    exact ⟨costs, dijkstraLoop_empty rfl, hinv⟩
  | succ f ih =>
    intro opn costs hinv hm
    cases hp : popMin less opn with
    | none =>
      have hopn : opn = [] := popMin_none_iff.mp hp
      subst hopn
      exact ⟨costs, dijkstraLoop_empty hp, hinv⟩
    | some pair =>
      obtain ⟨m, rest⟩ := pair
      have hmem : m ∈ opn := popMin_mem hp
      have hsub := popMin_rest_subset hp
      have hcover := popMin_cover hp
      have hplen := popMin_length hp
      cases hl : lookupNode costs m.Key with
      | some n =>
        rw [dijkstraLoop_stale hp hl]
        refine ih rest costs
          ⟨hinv.nodup, hinv.recReach, fun e he => hinv.openReach e (hsub e he),
            hinv.recMin, ?_, ?_, fun e he => hinv.openIn e (hsub e he),
            hinv.recIn⟩ ?_
        · intro n' hn' v hv hok
          rcases hinv.expand n' hn' v hv hok with ⟨e, he, hek, hle⟩ | hsome
          · rcases hcover e he with rfl | her
            · right
              rw [← hek, hl]
              rfl
            · exact Or.inl ⟨e, her, hek, hle⟩
          · exact Or.inr hsome
        · rcases hinv.seed with hsome | ⟨e, he, hek, hle⟩
          · exact Or.inl hsome
          · rcases hcover e he with rfl | her
            · left
              rw [← hek, hl]
              rfl
            · exact Or.inr ⟨e, her, hek, hle⟩
        · unfold measureD at hm ⊢
          omega
      | none =>
        rw [dijkstraLoop_finalize hp hl]
        have hreachm : Reaches acc edges start initial m.Key m.Cost :=
          hinv.openReach m hmem
        have hmless := popMin_min hasymm hneg hp
        have hminm : ∀ c, Reaches acc edges start initial m.Key c →
            less c m.Cost = false := by
          intro c hc
          obtain ⟨e, he, hle⟩ := frontierCover hneg hstep harg hinv m.Key c hc hl
          exact hneg _ _ _ (hmless e he) hle
        have hmkey : lookupNode (costs ++ [m]) m.Key = some m := by
          rw [lookupNode_append_none hl]
          simp [lookupNode]
        refine ih _ _ ⟨?_, ?_, ?_, ?_, ?_, ?_, ?_, ?_⟩ ?_
        · exact nodupKeys_append hinv.nodup hl
        · intro n' hn'
          rcases List.mem_append.mp hn' with h' | h'
          · exact hinv.recReach n' h'
          · simp at h'; subst n'; exact hreachm
        · intro e he
          rcases List.mem_append.mp he with h' | h'
          · exact hinv.openReach e (hsub e h')
          · obtain ⟨v, hv, hok, he'⟩ := pushList_mem h'
            subst he'
            exact Reaches.step hreachm hv hok
        · intro n' hn' c hc
          rcases List.mem_append.mp hn' with h' | h'
          · exact hinv.recMin n' h' c hc
          · simp at h'; subst n'; exact hminm c hc
        · intro n' hn' v hv hok
          rcases List.mem_append.mp hn' with h' | h'
          · rcases hinv.expand n' h' v hv hok with ⟨e, he, hek, hle⟩ | hsome
            · rcases hcover e he with rfl | her
              · right
                rw [← hek, hmkey]
                rfl
              · exact Or.inl ⟨e, List.mem_append_left _ her, hek, hle⟩
            · right
              obtain ⟨x, hx⟩ := Option.isSome_iff_exists.mp hsome
              rw [lookupNode_append_some hx]
              rfl
          · simp at h'
            subst n'
            left
            exact ⟨⟨v, (acc m.Cost m.Key v).1, some m.Key⟩,
              List.mem_append_right _ (pushList_mem_of hv hok), rfl,
              less_false_refl hasymm _⟩
        · rcases hinv.seed with hsome | ⟨e, he, hek, hle⟩
          · left
            obtain ⟨x, hx⟩ := Option.isSome_iff_exists.mp hsome
            rw [lookupNode_append_some hx]
            rfl
          · rcases hcover e he with rfl | her
            · left
              rw [← hek, hmkey]
              rfl
            · exact Or.inr ⟨e, List.mem_append_left _ her, hek, hle⟩
        · intro e he
          rcases List.mem_append.mp he with h' | h'
          · exact hinv.openIn e (hsub e h')
          · obtain ⟨v, hv, hok, he'⟩ := pushList_mem h'
            subst he'
            exact hclosed m.Key (hinv.openIn m hmem) v hv
        · intro n' hn'
          rcases List.mem_append.mp hn' with h' | h'
          · exact hinv.recIn n' h'
          · simp at h'; subst n'; exact hinv.openIn m hmem
        · have hpush : (pushList acc m (edges m.Key)).length ≤
              (edges m.Key).length := pushList_length_le
          have hmfil : m.Key ∈ S.filter
              (fun u => (lookupNode costs u).isNone = true) :=
            Finset.mem_filter.mpr ⟨hinv.openIn m hmem, by rw [hl]; rfl⟩
          have hsum : Finset.sum
              ((S.filter fun u => (lookupNode costs u).isNone = true).erase m.Key)
              (fun u => 1 + (edges u).length) + (1 + (edges m.Key).length) =
              Finset.sum (S.filter fun u => (lookupNode costs u).isNone = true)
              (fun u => 1 + (edges u).length) :=
            Finset.sum_erase_add
              (S.filter fun u => (lookupNode costs u).isNone = true)
              (fun u => 1 + (edges u).length) hmfil
          unfold measureD at hm ⊢
          rw [filter_finalize hl, List.length_append]
          omega

end Termination

/-- Claim C1 (amended): for every finite configuration (a universe `S`
containing `start` and closed under `edges`) whose accumulator, with
respect to the strict order induced by `less`, never decreases cost
along an admissible step AND is monotone in its accumulated-cost
argument (a no-greater aggregate stays admissible and yields a
no-greater result), `Dijkstra` terminates and returns a cost map in
which every state reachable by admissible edge sequences has exactly one
record, whose cost is achieved by such a sequence and is no greater than
the cost of any admissible sequence reaching that state (the start
itself having cost `initial`). -/
theorem dijkstra_minimal_costs {K C : Type} [DecidableEq K]
    (acc : C → K → K → C × Bool) (less : C → C → Bool) (edges : K → List K)
    (start : K) (initial : C) (S : Finset K)
    (hasymm : ∀ a b : C, less a b = true → less b a = false)
    (hneg : ∀ a b c : C, less b a = false → less c b = false → less c a = false)
    (hstep : ∀ c u v, (acc c u v).2 = true → less (acc c u v).1 c = false)
    (harg : ∀ c c' u v, less c' c = false → (acc c' u v).2 = true →
      (acc c u v).2 = true ∧ less (acc c' u v).1 (acc c u v).1 = false)
    (hstartS : start ∈ S)
    (hclosed : ∀ u ∈ S, ∀ v ∈ edges u, v ∈ S) :
    ∃ fuel res, Dijkstra fuel start acc initial less edges = some res ∧
      NodupKeys res ∧
      (∀ s, (∃ c, Reaches acc edges start initial s c) →
        ∃ n, lookupNode res s = some n ∧
          Reaches acc edges start initial s n.Cost ∧
          ∀ c, Reaches acc edges start initial s c → less c n.Cost = false) := by
  have hinv0 : MinInv acc less edges start initial S
      [⟨start, initial, none⟩] [] := by
    refine ⟨?_, ?_, ?_, ?_, ?_, ?_, ?_, ?_⟩
    · simp [NodupKeys]
    · intro n hn; simp at hn
    · intro e he
      simp at he
      subst he
      exact Reaches.refl
    · intro n hn; simp at hn
    · intro n hn; simp at hn
    · exact Or.inr ⟨⟨start, initial, none⟩, by simp, rfl,
        less_false_refl hasymm initial⟩
    · intro e he
      simp at he
      subst he
      exact hstartS
    · intro n hn; simp at hn
  obtain ⟨res, hrun, hfin⟩ := minRun hasymm hneg hstep harg hclosed
    (measureD edges S [⟨start, initial, none⟩] []) [⟨start, initial, none⟩] []
    hinv0 le_rfl
  refine ⟨measureD edges S [⟨start, initial, none⟩] [], res, hrun, hfin.nodup, ?_⟩
  rintro s ⟨c, hc⟩
  cases hs : lookupNode res s with
  | none =>
    obtain ⟨e, he, -⟩ := frontierCover hneg hstep harg hfin s c hc hs
    simp at he
  | some n =>
    refine ⟨n, rfl, ?_, ?_⟩
    · have hr := hfin.recReach n (lookupNode_mem hs)
      rwa [lookupNode_key hs] at hr
    · intro c' hc'
      exact hfin.recMin n (lookupNode_mem hs) c'
        ((lookupNode_key hs).symm ▸ hc')

theorem dijkstra_minimal_costs_witness :
    ∃ fuel res, Dijkstra fuel 0 wAcc 0 natLess wEdges = some res ∧
      NodupKeys res ∧
      (∀ s, (∃ c, Reaches wAcc wEdges 0 0 s c) →
        ∃ n, lookupNode res s = some n ∧
          Reaches wAcc wEdges 0 0 s n.Cost ∧
          ∀ c, Reaches wAcc wEdges 0 0 s c → natLess c n.Cost = false) := by
  refine dijkstra_minimal_costs wAcc natLess wEdges 0 0 {0, 1, 2} ?_ ?_ ?_ ?_
    (by decide) (by decide)
  · intro a b hab
    simp only [natLess, decide_eq_true_eq] at hab
    simp only [natLess, decide_eq_false_iff_not]
    omega
  · intro a b c h1 h2
    simp only [natLess, decide_eq_false_iff_not] at h1 h2 ⊢
    omega
  · intro c u v _
    simp only [wAcc, natLess, decide_eq_false_iff_not]
    omega
  · intro c c' u v h1 _
    simp only [natLess, decide_eq_false_iff_not] at h1
    refine ⟨rfl, ?_⟩
    simp only [wAcc, natLess, decide_eq_false_iff_not]
    omega
